import Mathlib

set_option maxRecDepth 40000

/-!
# Verification of `julian_day_converter` (src/src/lib.rs)

This file is a shallow embedding, in Lean 4, of the Rust library
`julian_day_converter`.  The library converts between Unix timestamps
(`i64` seconds), Julian Day values (`f64`), and timezone-neutral calendar
date-times (`chrono::NaiveDateTime`), and derives weekday indices.

## Modelling choices

* A finite `f64` value is an exact rational number.  We represent such
  values as explicit fractions (`QF`, a numerator/denominator pair of
  integers, denominator positive in every value the model constructs) so
  that the kernel can evaluate every operation.  IEEE-754 double
  arithmetic (`+`, `-`, `*`, `/` on `f64`) is modelled exactly:
  each operation computes the mathematically exact rational result and
  rounds it to 53 significant bits with round-to-nearest, ties-to-even
  (`roundRat`).  The exponent range of `f64` is treated as unbounded;
  no value in this development comes anywhere near overflow or subnormal
  range, so this coincides with IEEE-754 on everything considered here.
* Rust's saturating `as i64` / `as u64` casts from `f64` (truncation
  toward zero, then clamping to the target range) are modelled by
  `f64_as_i64` / `f64_as_u64`.
* `chrono::NaiveDateTime` is an external collaborator, treated per the
  specification as a black box providing construction from seconds since
  the Unix epoch, strict `"%Y-%m-%d %H:%M:%S"` parsing, and field access,
  over the proleptic Gregorian calendar with years restricted to
  chrono's representable range `-262144..=262143`.  It is modelled by
  the structure `NaiveDateTime` together with `fromTimestampOpt`,
  `timestamp` and `parseYmdHms` below.
* Rust strings are modelled as `List Char`; `str::len` (a byte count)
  is modelled by `utf8Len`.
-/

/-- An exact rational value `num / den`; used to represent finite `f64`
values exactly.  Every value produced by the model has `0 < den` (the
rounding step always returns a power-of-two denominator). -/
structure QF where
  num : ℤ
  den : ℤ
deriving DecidableEq, Repr

/-- The exact rational value of a `QF`. -/
def QF.toRat (x : QF) : ℚ := (x.num : ℚ) / (x.den : ℚ)

/-- Value-level order on fractions (for positive denominators):
`a.num / a.den ≤ b.num / b.den` by cross multiplication. -/
def QF.qLe (a b : QF) : Prop := a.num * b.den ≤ b.num * a.den

/-- Value-level strict order on fractions (for positive denominators). -/
def QF.qLt (a b : QF) : Prop := a.num * b.den < b.num * a.den

/-- Value-level equality on fractions (for positive denominators). -/
def QF.qEq (a b : QF) : Prop := a.num * b.den = b.num * a.den

instance (a b : QF) : Decidable (QF.qLe a b) := by unfold QF.qLe; infer_instance
instance (a b : QF) : Decidable (QF.qLt a b) := by unfold QF.qLt; infer_instance
instance (a b : QF) : Decidable (QF.qEq a b) := by unfold QF.qEq; infer_instance

/-- Fuel-driven base-2 logarithm (`nlog2F fuel n` = `⌊log₂ n⌋` whenever
`n ≤ fuel` and `1 ≤ n`).  Structural recursion on the fuel keeps it
kernel-computable, unlike `Nat.log2`. -/
def nlog2F : ℕ → ℕ → ℕ
  | 0, _ => 0
  | fuel + 1, n => if 2 ≤ n then nlog2F fuel (n / 2) + 1 else 0

/-- `⌊log₂ n⌋` for `1 ≤ n` (and `0` at `0`). -/
def nlog2 (n : ℕ) : ℕ := nlog2F n n

/-- Decidable test for `2 ^ k ≤ n / d` (`d > 0`), with `k : ℤ`. -/
def pow2LeRat (k : ℤ) (n d : ℕ) : Prop :=
  if 0 ≤ k then 2 ^ k.toNat * d ≤ n else d ≤ n * 2 ^ (-k).toNat

instance (k : ℤ) (n d : ℕ) : Decidable (pow2LeRat k n d) := by
  unfold pow2LeRat; split <;> infer_instance

/-- Binary exponent of the positive rational `n / d`: the unique `e` with
`2 ^ e ≤ n / d < 2 ^ (e + 1)` (for `1 ≤ n`, `1 ≤ d`). -/
def ratExp (n d : ℕ) : ℤ :=
  let a : ℤ := nlog2 n
  let b : ℤ := nlog2 d
  if pow2LeRat (a - b) n d then a - b else a - b - 1

/-- Round the fraction `N / D` to the nearest integer, ties to even. -/
def rneDiv (N D : ℕ) : ℕ :=
  let q := N / D
  let r := N % D
  if 2 * r < D then q
  else if D < 2 * r then q + 1
  else if q % 2 = 0 then q else q + 1

/-- Round the exact rational `num / den` (`den > 0`) to the nearest
`f64` value: 53 significant bits, round-to-nearest, ties-to-even,
unbounded exponent range.  This is the rounding every IEEE-754 double
operation performs on its exact result.  With `e` the binary exponent,
the mantissa is the nearest-even rounding of
`(n / d) * 2 ^ (52 - e) ∈ [2^52, 2^53)`. -/
def roundRat (num den : ℤ) : QF :=
  if num = 0 then ⟨0, 1⟩ else
  let s : ℤ := if num < 0 then -1 else 1
  let n : ℕ := num.natAbs
  let d : ℕ := den.natAbs
  let e : ℤ := ratExp n d
  let m : ℕ := rneDiv (n * 2 ^ (52 - e).toNat) (d * 2 ^ (e - 52).toNat)
  if 0 ≤ e - 52 then ⟨s * (m : ℤ) * 2 ^ (e - 52).toNat, 1⟩
  else ⟨s * (m : ℤ), 2 ^ (52 - e).toNat⟩

/-- IEEE-754 double addition on exactly-represented values. -/
def fpAdd (a b : QF) : QF := roundRat (a.num * b.den + b.num * a.den) (a.den * b.den)

/-- IEEE-754 double subtraction on exactly-represented values. -/
def fpSub (a b : QF) : QF := roundRat (a.num * b.den - b.num * a.den) (a.den * b.den)

/-- IEEE-754 double multiplication on exactly-represented values. -/
def fpMul (a b : QF) : QF := roundRat (a.num * b.num) (a.den * b.den)

/-- IEEE-754 double division on exactly-represented values (used only
with positive divisors in this development). -/
def fpDiv (a b : QF) : QF := roundRat (a.num * b.den) (a.den * b.num)

/-- Rust's `as f64` on an integer (exact when `|t| ≤ 2^53`, otherwise
rounded to nearest, ties to even — the IEEE-754 conversion). -/
def fpOfInt (t : ℤ) : QF := roundRat t 1

/-- Truncation toward zero of the value of a fraction (`den > 0`):
the semantics of Rust's float-to-integer cast before clamping. -/
def qTrunc (x : QF) : ℤ :=
  if x.num < 0 then -(Int.fdiv (-x.num) x.den) else Int.fdiv x.num x.den

/-- Rust's saturating `f64 as i64` cast: truncate toward zero, clamp to
`[i64::MIN, i64::MAX]`. -/
def f64_as_i64 (x : QF) : ℤ := max (-(2 ^ 63)) (min (2 ^ 63 - 1) (qTrunc x))

/-- Rust's saturating `f64 as u64` cast: truncate toward zero, clamp to
`[0, u64::MAX]`; every negative value saturates to `0`. -/
def f64_as_u64 (x : QF) : ℕ :=
  if x.num < 0 then 0 else min (2 ^ 64 - 1) (qTrunc x).toNat

/-- `JULIAN_DAY_UNIX_EPOCH_DAYS = 2440587.5`, the Julian Day of
1970-01-01T00:00:00 UTC (exactly representable in `f64`). -/
def JULIAN_DAY_UNIX_EPOCH_DAYS : QF := ⟨4881175, 2⟩

/-- `JULIAN_DAY_UNIX_EPOCH_WEEKDAY = 4` (1970-01-01 in the Sun=0
weekday-index convention: a Thursday). -/
def JULIAN_DAY_UNIX_EPOCH_WEEKDAY : ℕ := 4

/-- `unixtime_to_julian_day` from src/src/lib.rs:
`(ts as f64 / 86_400f64) + JULIAN_DAY_UNIX_EPOCH_DAYS`. -/
def unixtime_to_julian_day (ts : ℤ) : QF :=
  fpAdd (fpDiv (fpOfInt ts) ⟨86400, 1⟩) JULIAN_DAY_UNIX_EPOCH_DAYS

/-- `julian_day_to_unixtime` from src/src/lib.rs:
`((jd - JULIAN_DAY_UNIX_EPOCH_DAYS) * 86400f64) as i64`. -/
def julian_day_to_unixtime (jd : QF) : ℤ :=
  f64_as_i64 (fpMul (fpSub jd JULIAN_DAY_UNIX_EPOCH_DAYS) ⟨86400, 1⟩)

/-- `julian_day_to_weekday_index` from src/src/lib.rs:
adds `offset_secs as f64 / 86400f64` to `jd`, subtracts the epoch-days
constant, casts the (possibly negative, fractional) day count to `u64`
(saturating), reduces mod 7, adds the epoch weekday constant, reduces
mod 7 again.  The `if ds < 7 { ds } else { 0 }` guard of the source is
kept, dead as it is. -/
def julian_day_to_weekday_index (jd : QF) (offset_secs : ℤ) : ℕ :=
  let ref_jd := fpAdd jd (fpDiv (fpOfInt offset_secs) ⟨86400, 1⟩)
  let days_since_1970 := fpSub ref_jd JULIAN_DAY_UNIX_EPOCH_DAYS
  let ds := f64_as_u64 days_since_1970 % 7
  let days_since_index := if ds < 7 then ds else 0
  (days_since_index + JULIAN_DAY_UNIX_EPOCH_WEEKDAY) % 7

/-- Timezone-neutral calendar date-time: the model of
`chrono::NaiveDateTime` (second resolution, as used by the library). -/
structure NaiveDateTime where
  year : ℤ
  month : ℕ
  day : ℕ
  hour : ℕ
  minute : ℕ
  second : ℕ
deriving DecidableEq, Repr

/-- Days since 1970-01-01 → proleptic-Gregorian `(year, month, day)`
(Howard Hinnant's `civil_from_days`, the algorithm family chrono's
calendar arithmetic realises). -/
def civilFromDays (z0 : ℤ) : ℤ × ℤ × ℤ :=
  let z := z0 + 719468
  let era := Int.fdiv z 146097
  let doe := z - era * 146097
  let yoe := Int.fdiv (doe - Int.fdiv doe 1460 + Int.fdiv doe 36524 - Int.fdiv doe 146096) 365
  let y := yoe + era * 400
  let doy := doe - (365 * yoe + Int.fdiv yoe 4 - Int.fdiv yoe 100)
  let mp := Int.fdiv (5 * doy + 2) 153
  let d := doy - Int.fdiv (153 * mp + 2) 5 + 1
  let m := mp + (if mp < 10 then 3 else -9)
  (y + (if m ≤ 2 then 1 else 0), m, d)

/-- Proleptic-Gregorian `(year, month, day)` → days since 1970-01-01
(Howard Hinnant's `days_from_civil`). -/
def daysFromCivil (y : ℤ) (m d : ℕ) : ℤ :=
  let y1 := y - (if m ≤ 2 then 1 else 0)
  let era := Int.fdiv y1 400
  let yoe := y1 - era * 400
  let doy := Int.fdiv (153 * ((m : ℤ) + (if 2 < m then -3 else 9)) + 2) 5 + (d : ℤ) - 1
  let doe := yoe * 365 + Int.fdiv yoe 4 - Int.fdiv yoe 100 + doy
  era * 146097 + doe - 719468

/-- chrono's minimum representable year (`i32::MIN >> 13`). -/
def CHRONO_MIN_YEAR : ℤ := -262144

/-- chrono's maximum representable year (`i32::MAX >> 13`). -/
def CHRONO_MAX_YEAR : ℤ := 262143

/-- Model of `chrono::NaiveDateTime::from_timestamp_opt(secs, 0)`:
split the seconds into a day count and seconds-of-day, convert the day
count to a Gregorian date, and fail exactly when the result lies outside
chrono's representable year range. -/
def fromTimestampOpt (secs : ℤ) : Option NaiveDateTime :=
  let days := Int.fdiv secs 86400
  let sod := (secs - days * 86400).toNat
  let c := civilFromDays days
  if CHRONO_MIN_YEAR ≤ c.1 ∧ c.1 ≤ CHRONO_MAX_YEAR then
    some ⟨c.1, c.2.1.toNat, c.2.2.toNat, sod / 3600, sod % 3600 / 60, sod % 60⟩
  else none

/-- `NaiveDateTime::timestamp()`: whole seconds since the Unix epoch. -/
def timestamp (dt : NaiveDateTime) : ℤ :=
  daysFromCivil dt.year dt.month dt.day * 86400
    + dt.hour * 3600 + dt.minute * 60 + dt.second

/-- `julian_day_to_datetime` from src/src/lib.rs: feeds
`julian_day_to_unixtime(jd)` to `NaiveDateTime::from_timestamp_opt`;
`none` models `Err("Julian Day out of range")`.  Note that the source
performs no range comparison of its own: the only failure is the
underlying chrono construction failing. -/
def julian_day_to_datetime (jd : QF) : Option NaiveDateTime :=
  fromTimestampOpt (julian_day_to_unixtime jd)

/-- `JulianDay::to_jd` for `NaiveDateTime` (src/src/lib.rs):
`unixtime_to_julian_day(self.timestamp())`. -/
def to_jd (dt : NaiveDateTime) : QF := unixtime_to_julian_day (timestamp dt)

/-- `JulianDay::from_jd` for `NaiveDateTime` (src/src/lib.rs): `Some` of
`julian_day_to_datetime` on success, `None` on error. -/
def from_jd (jd : QF) : Option NaiveDateTime := julian_day_to_datetime jd

/-- `WeekdayIndex::weekday_index` for `NaiveDateTime` (src/src/lib.rs):
`julian_day_to_weekday_index(self.to_jd(), offset_secs)`. -/
def weekday_index (dt : NaiveDateTime) (offset_secs : ℤ) : ℕ :=
  julian_day_to_weekday_index (to_jd dt) offset_secs

/-- Modelled from the spec: `julian_day_to_weekday_number` (§4.1) is
absent from src/src/lib.rs — only the repository's integration tests
call it (`dt.weekday_number(0)`).  Per the spec it "equals
`weekday_index`, except index 0 (Sunday) maps to 7; all other values
pass through unchanged". -/
def julian_day_to_weekday_number (jd : QF) (offset_secs : ℤ) : ℕ :=
  let i := julian_day_to_weekday_index jd offset_secs
  if i = 0 then 7 else i

/-- Modelled from the spec: the constant `JULIAN_DAY_MIN_SUPPORTED =
-1930999.5` (§4.1) is referenced by src/tests/integration_tests.rs but
absent from src/src/lib.rs.  `-1930999.5` is exactly representable. -/
def JULIAN_DAY_MIN_SUPPORTED : QF := ⟨-3861999, 2⟩

/-- Modelled from the spec: the constant `JULIAN_DAY_MAX_SUPPORTED =
5373484.499999` (§4.1) is referenced by src/tests/integration_tests.rs
but absent from src/src/lib.rs.  The decimal literal is not exactly
representable; the constant is the `f64` nearest to it. -/
def JULIAN_DAY_MAX_SUPPORTED : QF := roundRat 5373484499999 1000000

/-- ASCII/common whitespace, the relevant fragment of Rust's
`char::is_whitespace` (no input in this development contains any other
Unicode white-space character). -/
def isWsChar (c : Char) : Bool :=
  (c == ' ') || (c == '\t') || (c == '\n') || (c == '\x0b') || (c == '\x0c') || (c == '\r')

/-- UTF-8 byte length of a string, the model of Rust's `str::len`. -/
def utf8Len (l : List Char) : ℕ := (l.map Char.utf8Size).sum

/-- `str::contains(char)`. -/
def hasChar : List Char → Char → Bool
  | [], _ => false
  | c :: r, a => (c == a) || hasChar r a

/-- `str::split(pat)` with a single-character pattern: splits at every
occurrence, keeping empty segments; always yields at least one segment. -/
def splitOnChar (sep : Char) : List Char → List (List Char)
  | [] => [[]]
  | c :: rest =>
    match splitOnChar sep rest with
    | [] => [[c]]
    | h :: t => if c = sep then [] :: h :: t else (c :: h) :: t

/-- `str::replace` with single-character pattern and replacement. -/
def replaceChar (a b : Char) (l : List Char) : List Char :=
  l.map fun c => if c = a then b else c

/-- `str::trim`. -/
def trimStr (l : List Char) : List Char :=
  ((l.dropWhile (isWsChar ·)).reverse.dropWhile (isWsChar ·)).reverse

/-- Greedily take up to `max` leading ASCII digits (chrono's
`scan::number` width limit). -/
def takeDigits : ℕ → List Char → List Char × List Char
  | 0, l => ([], l)
  | _ + 1, [] => ([], [])
  | maxW + 1, c :: r =>
    if c.isDigit then
      let p := takeDigits maxW r
      (c :: p.1, p.2)
    else ([], c :: r)

/-- Numeric value of a digit string. -/
def digitsToNat (l : List Char) : ℕ := l.foldl (fun a c => 10 * a + (c.toNat - 48)) 0

/-- chrono numeric item: skip leading whitespace, then read between one
and `maxW` digits. -/
def parseNum (maxW : ℕ) (s : List Char) : Option (ℕ × List Char) :=
  let p := takeDigits maxW (s.dropWhile (isWsChar ·))
  if p.1 = [] then none else some (digitsToNat p.1, p.2)

/-- chrono `%Y` item: skip whitespace; a sign admits unlimited digits,
an unsigned year reads at most four. -/
def parseYear (s : List Char) : Option (ℤ × List Char) :=
  match s.dropWhile (isWsChar ·) with
  | '-' :: r =>
    let ds := r.takeWhile Char.isDigit
    if ds = [] then none else some (-(digitsToNat ds : ℤ), r.dropWhile Char.isDigit)
  | '+' :: r =>
    let ds := r.takeWhile Char.isDigit
    if ds = [] then none else some ((digitsToNat ds : ℤ), r.dropWhile Char.isDigit)
  | s1 =>
    let p := takeDigits 4 s1
    if p.1 = [] then none else some ((digitsToNat p.1 : ℤ), p.2)

/-- chrono literal item: match one exact character. -/
def expectChar (c : Char) : List Char → Option (List Char)
  | [] => none
  | x :: r => if x = c then some r else none

/-- Proleptic-Gregorian leap year. -/
def isLeapYear (y : ℤ) : Bool :=
  (Int.emod y 4 == 0 && Int.emod y 100 != 0) || Int.emod y 400 == 0

/-- Days in a month of the proleptic Gregorian calendar. -/
def daysInMonth (y : ℤ) (m : ℕ) : ℕ :=
  if m = 2 then (if isLeapYear y then 29 else 28)
  else if m = 4 ∨ m = 6 ∨ m = 9 ∨ m = 11 then 30
  else 31

/-- Model of `NaiveDateTime::parse_from_str(s, "%Y-%m-%d %H:%M:%S")`:
items `%Y`, `'-'`, `%m`, `'-'`, `%d`, whitespace, `%H`, `':'`, `%M`,
`':'`, `%S`, then end of input; followed by chrono's calendar validation
(month 1–12, day within the month, hour ≤ 23, minute ≤ 59, second ≤ 59,
year within chrono's range; the leap-second reading of second 60 is
modelled as a parse failure — no input here exercises it). -/
def parseYmdHms (s : List Char) : Option NaiveDateTime := do
  let (y, s) ← parseYear s
  let s ← expectChar '-' s
  let (mo, s) ← parseNum 2 s
  let s ← expectChar '-' s
  let (da, s) ← parseNum 2 s
  let s := s.dropWhile (isWsChar ·)
  let (h, s) ← parseNum 2 s
  let s ← expectChar ':' s
  let (mi, s) ← parseNum 2 s
  let s ← expectChar ':' s
  let (se, s) ← parseNum 2 s
  if s = [] ∧ 1 ≤ mo ∧ mo ≤ 12 ∧ 1 ≤ da ∧ da ≤ daysInMonth y mo
      ∧ h ≤ 23 ∧ mi ≤ 59 ∧ se ≤ 59
      ∧ CHRONO_MIN_YEAR ≤ y ∧ y ≤ CHRONO_MAX_YEAR then
    some ⟨y, mo, da, h, mi, se⟩
  else none

/-- The two conditional `date_parts.push("01")` statements of
`iso_fuzzy_string_to_datetime` (each re-reads the current length). -/
def padDateParts (dp : List (List Char)) : List (List Char) :=
  let dp1 := if dp.length < 2 then dp ++ [['0', '1']] else dp
  if dp1.length < 3 then dp1 ++ [['0', '1']] else dp1

/-- The two conditional `time_parts.push("00")` statements of
`iso_fuzzy_string_to_datetime`; both test `num_time_parts`, the length
captured *before* the pushes. -/
def padTimeParts (tp : List (List Char)) : List (List Char) :=
  let n := tp.length
  let tp1 := if n < 3 then tp ++ [['0', '0']] else tp
  if n < 2 then tp1 ++ [['0', '0']] else tp1

/-- The indexings `parts[0]`, `parts[1]`, `parts[2]`: `none` models an
out-of-bounds panic. -/
def take3 : List (List Char) → Option (List Char × List Char × List Char)
  | a :: b :: c :: _ => some (a, b, c)
  | _ => none

/-- `dt.split(".").next().unwrap()` behind `if dt.contains('.')`:
`none` models the `unwrap` panicking. -/
def dtBaseStep (s : List Char) : Option (List Char) :=
  if hasChar s '.' then (splitOnChar '.' s).head? else some s

/-- The two `dt_parts.next().unwrap()` calls on `clean_dt.split(" ")`
(the first taken for the date segment, the second for the time segment,
both only when `clean_dt` contains a space); `none` models a panic. -/
def dateTimeSplit (clean : List Char) : Option (List Char × List Char) :=
  if hasChar clean ' ' then
    match splitOnChar ' ' clean with
    | a :: b :: _ => some (a, b)
    | _ => none
  else some (clean, [])

/-- `iso_fuzzy_string_to_datetime` from src/src/lib.rs, with panics made
explicit: the outer `Option` is `none` exactly when an internal
`unwrap` or vector indexing would panic (proved impossible below); the
inner `Option` is the function's own parse-error result. -/
def isoFuzzyRun (dtIn : List Char) : Option (Option NaiveDateTime) :=
  (dtBaseStep dtIn).bind fun dtBase =>
  let cleanDt := trimStr (replaceChar 'T' ' ' dtBase)
  (dateTimeSplit cleanDt).bind fun p =>
  let dateParts := padDateParts
    (if 1 < utf8Len p.1 then splitOnChar '-' p.1
     else [['2', '0', '0', '0'], ['0', '1'], ['0', '1']])
  (take3 dateParts).bind fun dp =>
  let datePart := dp.1 ++ '-' :: dp.2.1 ++ '-' :: dp.2.2
  let timeParts := padTimeParts
    (if 1 < utf8Len p.2 then splitOnChar ':' p.2
     else [['0', '0'], ['0', '0'], ['0', '0']])
  (take3 timeParts).bind fun tp =>
  some (parseYmdHms (datePart ++ ' ' :: tp.1 ++ ':' :: tp.2.1 ++ ':' :: tp.2.2))

/-- `iso_fuzzy_string_to_datetime` as the total function it is proved to
be (the panic level of `isoFuzzyRun` collapsed away). -/
def iso_fuzzy_string_to_datetime (s : List Char) : Option NaiveDateTime :=
  (isoFuzzyRun s).join

/-- `FromFuzzyISOString::from_fuzzy_iso_string` for `NaiveDateTime`
(src/src/lib.rs): delegates to `iso_fuzzy_string_to_datetime`. -/
def from_fuzzy_iso_string (s : List Char) : Option NaiveDateTime :=
  iso_fuzzy_string_to_datetime s

/-- `datetime_to_julian_day` from src/src/lib.rs: fuzzy-parse, then
`unixtime_to_julian_day(dt.timestamp())`; `none` models
`Err("invalid ISO date-compatible format")`. -/
def datetime_to_julian_day (s : List Char) : Option QF :=
  (iso_fuzzy_string_to_datetime s).map fun dt => unixtime_to_julian_day (timestamp dt)

/-! ## Arithmetic facts about the model -/

theorem nlog2F_bounds : ∀ (fuel n : ℕ), 1 ≤ n → n ≤ fuel →
    2 ^ nlog2F fuel n ≤ n ∧ n < 2 ^ (nlog2F fuel n + 1) := by
  intro fuel
  induction fuel with
  | zero => intro n h1 h2; omega
  | succ f ih =>
    intro n h1 h2
    rw [nlog2F]
    by_cases h : 2 ≤ n
    · rw [if_pos h]
      obtain ⟨l, u⟩ := ih (n / 2) (by omega) (by omega)
      have e1 : 2 ^ (nlog2F f (n / 2) + 1) = 2 ^ nlog2F f (n / 2) * 2 := by
        rw [pow_succ]
      have e2 : 2 ^ (nlog2F f (n / 2) + 1 + 1) = 2 ^ (nlog2F f (n / 2) + 1) * 2 := by
        rw [pow_succ]
      omega
    · rw [if_neg h]
      have hn1 : n = 1 := by omega
      subst hn1
      norm_num

theorem nlog2_le_self (n : ℕ) (h : 1 ≤ n) : 2 ^ nlog2 n ≤ n :=
  (nlog2F_bounds n n h le_rfl).1

theorem lt_nlog2_succ (n : ℕ) (h : 1 ≤ n) : n < 2 ^ (nlog2 n + 1) :=
  (nlog2F_bounds n n h le_rfl).2

theorem ratExp_spec (n d : ℕ) (hn : 1 ≤ n) (hd : 1 ≤ d) : pow2LeRat (ratExp n d) n d := by
  rw [ratExp]
  split
  · assumption
  · have hln := nlog2_le_self n hn
    have hld := lt_nlog2_succ d hd
    rw [pow2LeRat]
    split
    · next h0 =>
      have hba : (nlog2 d : ℤ) + 1 ≤ nlog2 n := by omega
      have hab : (((nlog2 n : ℤ)) - nlog2 d - 1).toNat = nlog2 n - (nlog2 d + 1) := by omega
      rw [hab]
      have hmul : 2 ^ (nlog2 n - (nlog2 d + 1)) * d
          < 2 ^ (nlog2 n - (nlog2 d + 1)) * 2 ^ (nlog2 d + 1) :=
        mul_lt_mul_of_pos_left hld (pow_pos two_pos _)
      rw [← pow_add] at hmul
      have hsum : nlog2 n - (nlog2 d + 1) + (nlog2 d + 1) = nlog2 n := by omega
      rw [hsum] at hmul
      omega
    · next h0 =>
      have hab2 : nlog2 n ≤ nlog2 d + 1 := by omega
      have hab : (-(((nlog2 n : ℤ)) - nlog2 d - 1)).toNat = nlog2 d + 1 - nlog2 n := by
        omega
      rw [hab]
      have h2 : (2 : ℕ) ^ (nlog2 d + 1) = 2 ^ nlog2 n * 2 ^ (nlog2 d + 1 - nlog2 n) := by
        rw [← pow_add, Nat.add_sub_cancel' hab2]
      rw [h2] at hld
      have hmul : 2 ^ nlog2 n * 2 ^ (nlog2 d + 1 - nlog2 n)
          ≤ n * 2 ^ (nlog2 d + 1 - nlog2 n) :=
        Nat.mul_le_mul_right _ hln
      omega

theorem scaled_ge (n d : ℕ) (hn : 1 ≤ n) (hd : 1 ≤ d) :
    d * 2 ^ (ratExp n d - 52).toNat ≤ n * 2 ^ (52 - ratExp n d).toNat := by
  have hP := ratExp_spec n d hn hd
  rw [pow2LeRat] at hP
  by_cases h0 : 0 ≤ ratExp n d
  · rw [if_pos h0] at hP
    by_cases h52 : ratExp n d ≤ 52
    · have h1 : (ratExp n d - 52).toNat = 0 := by omega
      rw [h1, pow_zero, mul_one]
      calc d ≤ 2 ^ (ratExp n d).toNat * d := Nat.le_mul_of_pos_left d (pow_pos two_pos _)
        _ ≤ n := hP
        _ ≤ n * 2 ^ (52 - ratExp n d).toNat := Nat.le_mul_of_pos_right n (pow_pos two_pos _)
    · have h1 : (52 - ratExp n d).toNat = 0 := by omega
      rw [h1, pow_zero, mul_one]
      have h3 : (ratExp n d).toNat = 52 + (ratExp n d - 52).toNat := by omega
      rw [h3, pow_add] at hP
      calc d * 2 ^ (ratExp n d - 52).toNat
          = 2 ^ (ratExp n d - 52).toNat * d := by ring
        _ ≤ 2 ^ 52 * (2 ^ (ratExp n d - 52).toNat * d) :=
            Nat.le_mul_of_pos_left _ (pow_pos two_pos _)
        _ = 2 ^ 52 * 2 ^ (ratExp n d - 52).toNat * d := by ring
        _ ≤ n := hP
  · rw [if_neg h0] at hP
    have h1 : (ratExp n d - 52).toNat = 0 := by omega
    rw [h1, pow_zero, mul_one]
    have h2 : (52 - ratExp n d).toNat = 52 + (-(ratExp n d)).toNat := by omega
    rw [h2, pow_add]
    calc d ≤ n * 2 ^ (-(ratExp n d)).toNat := hP
      _ ≤ n * (2 ^ 52 * 2 ^ (-(ratExp n d)).toNat) :=
          Nat.mul_le_mul_left n (Nat.le_mul_of_pos_left _ (pow_pos two_pos _))
      _ = n * (2 ^ 52 * 2 ^ (-(ratExp n d)).toNat) := rfl

theorem rneDiv_pos (N D : ℕ) (hD : 0 < D) (h : D ≤ N) : 0 < rneDiv N D := by
  rw [rneDiv]
  have hq : 0 < N / D := Nat.div_pos h hD
  split
  · exact hq
  · split
    · omega
    · split <;> omega

theorem roundRat_den_pos (num den : ℤ) : 0 < (roundRat num den).den := by
  rw [roundRat]
  by_cases h0 : num = 0
  · rw [if_pos h0]
    norm_num
  · rw [if_neg h0]
    by_cases h1 : (0 : ℤ) ≤ ratExp num.natAbs den.natAbs - 52
    · rw [if_pos h1]
      norm_num
    · rw [if_neg h1]
      dsimp only
      positivity

theorem roundRat_num_neg (num den : ℤ) (hnum : num < 0) (hden : 0 < den) :
    (roundRat num den).num < 0 := by
  have hn : 1 ≤ num.natAbs := by omega
  have hd : 1 ≤ den.natAbs := by omega
  have hge := scaled_ge num.natAbs den.natAbs hn hd
  have hDpos : 0 < den.natAbs * 2 ^ (ratExp num.natAbs den.natAbs - 52).toNat :=
    Nat.mul_pos (by omega) (pow_pos (by norm_num) _)
  have hmz : (0 : ℤ) <
      (rneDiv (num.natAbs * 2 ^ (52 - ratExp num.natAbs den.natAbs).toNat)
        (den.natAbs * 2 ^ (ratExp num.natAbs den.natAbs - 52).toNat) : ℤ) := by
    exact_mod_cast rneDiv_pos _ _ hDpos hge
  have hp : (0 : ℤ) < 2 ^ (ratExp num.natAbs den.natAbs - 52).toNat :=
    pow_pos (by norm_num) _
  rw [roundRat]
  rw [if_neg (by omega : ¬num = 0)]
  by_cases h1 : (0 : ℤ) ≤ ratExp num.natAbs den.natAbs - 52
  · rw [if_pos h1]
    dsimp only
    rw [if_pos hnum]
    nlinarith [mul_pos hmz hp]
  · rw [if_neg h1]
    dsimp only
    rw [if_pos hnum]
    nlinarith [mul_pos hmz hp]

theorem fdiv_eq_floor (a b : ℤ) (hb : 0 < b) : Int.fdiv a b = ⌊(a : ℚ) / (b : ℚ)⌋ := by
  rw [Int.fdiv_eq_ediv a (le_of_lt hb)]
  lift b to ℕ using le_of_lt hb
  rw [show (((b : ℤ) : ℚ)) = ((b : ℕ) : ℚ) by push_cast; ring]
  rw [Rat.floor_intCast_div_natCast a b]

theorem QF.num_neg_iff (x : QF) (hd : 0 < x.den) : x.num < 0 ↔ x.toRat < 0 := by
  rw [QF.toRat, div_neg_iff]
  have hdq : (0 : ℚ) < (x.den : ℚ) := by exact_mod_cast hd
  constructor
  · intro h
    exact Or.inr ⟨by exact_mod_cast h, hdq⟩
  · rintro (⟨_, h2⟩ | ⟨h1, _⟩)
    · linarith
    · exact_mod_cast h1

theorem qTrunc_eq (x : QF) (hd : 0 < x.den) :
    qTrunc x = if x.toRat < 0 then ⌈x.toRat⌉ else ⌊x.toRat⌋ := by
  rw [qTrunc]
  by_cases h : x.num < 0
  · rw [if_pos h, if_pos ((QF.num_neg_iff x hd).mp h)]
    rw [fdiv_eq_floor _ _ hd]
    have he : ((-x.num : ℤ) : ℚ) / (x.den : ℚ) = -(x.toRat) := by
      rw [QF.toRat]
      push_cast
      ring
    rw [he, Int.floor_neg]
    ring
  · rw [if_neg h, if_neg (by rw [← QF.num_neg_iff x hd]; exact h)]
    rw [fdiv_eq_floor _ _ hd]
    rfl

theorem QF.qLe_iff (a b : QF) (ha : 0 < a.den) (hb : 0 < b.den) :
    a.qLe b ↔ a.toRat ≤ b.toRat := by
  rw [QF.qLe, QF.toRat, QF.toRat,
    div_le_div_iff₀ (by exact_mod_cast ha) (by exact_mod_cast hb)]
  exact_mod_cast Iff.rfl

theorem QF.qLt_iff (a b : QF) (ha : 0 < a.den) (hb : 0 < b.den) :
    a.qLt b ↔ a.toRat < b.toRat := by
  rw [QF.qLt, QF.toRat, QF.toRat,
    div_lt_div_iff₀ (by exact_mod_cast ha) (by exact_mod_cast hb)]
  exact_mod_cast Iff.rfl

theorem fpAdd_den_pos (a b : QF) : 0 < (fpAdd a b).den := roundRat_den_pos _ _
theorem fpSub_den_pos (a b : QF) : 0 < (fpSub a b).den := roundRat_den_pos _ _
theorem fpMul_den_pos (a b : QF) : 0 < (fpMul a b).den := roundRat_den_pos _ _
theorem fpDiv_den_pos (a b : QF) : 0 < (fpDiv a b).den := roundRat_den_pos _ _

/-- The `if ds < 7 { ds } else { 0u8 }` guard in the source is dead:
its scrutinee is a `% 7` result. -/
theorem weekday_index_formula (jd : QF) (offset_secs : ℤ) :
    julian_day_to_weekday_index jd offset_secs =
      (f64_as_u64 (fpSub (fpAdd jd (fpDiv (fpOfInt offset_secs) ⟨86400, 1⟩))
        JULIAN_DAY_UNIX_EPOCH_DAYS) % 7 + JULIAN_DAY_UNIX_EPOCH_WEEKDAY) % 7 := by
  rw [julian_day_to_weekday_index]
  have h7 : f64_as_u64 (fpSub (fpAdd jd (fpDiv (fpOfInt offset_secs) ⟨86400, 1⟩))
      JULIAN_DAY_UNIX_EPOCH_DAYS) % 7 < 7 := Nat.mod_lt _ (by norm_num)
  rw [if_pos h7]

theorem weekday_index_lt (jd : QF) (offset_secs : ℤ) :
    julian_day_to_weekday_index jd offset_secs < 7 := by
  rw [weekday_index_formula]
  exact Nat.mod_lt _ (by norm_num)

/-! ## Facts about the fuzzy parser's internal steps -/

theorem splitOnChar_ne_nil (sep : Char) (l : List Char) : splitOnChar sep l ≠ [] := by
  cases l with
  | nil => simp [splitOnChar]
  | cons c rest =>
    rw [splitOnChar]
    cases h : splitOnChar sep rest with
    | nil => simp
    | cons a t => dsimp only; split <;> simp

theorem hasChar_iff_mem (l : List Char) (a : Char) : hasChar l a = true ↔ a ∈ l := by
  induction l with
  | nil => simp [hasChar]
  | cons c r ih =>
    simp only [hasChar, Bool.or_eq_true, beq_iff_eq, ih, List.mem_cons]
    rw [eq_comm]

theorem splitOnChar_length_ge_two (sep : Char) (l : List Char) (h : sep ∈ l) :
    2 ≤ (splitOnChar sep l).length := by
  induction l with
  | nil => simp at h
  | cons c rest ih =>
    rw [splitOnChar]
    cases hs : splitOnChar sep rest with
    | nil => exact absurd hs (splitOnChar_ne_nil sep rest)
    | cons a t =>
      dsimp only
      by_cases hc : c = sep
      · rw [if_pos hc]
        simp
      · rw [if_neg hc]
        have hmem : sep ∈ rest := by
          rcases List.mem_cons.mp h with h1 | h1
          · exact absurd h1.symm hc
          · exact h1
        have h2 := ih hmem
        rw [hs] at h2
        simpa using h2

theorem padDateParts_length (dp : List (List Char)) (h : 1 ≤ dp.length) :
    3 ≤ (padDateParts dp).length := by
  have h1 : (dp ++ [['0', '1']]).length = dp.length + 1 := by simp
  have h2 : ((dp ++ [['0', '1']]) ++ [['0', '1']]).length = dp.length + 2 := by simp
  rw [padDateParts]
  split_ifs <;> omega

theorem padTimeParts_length (tp : List (List Char)) (h : 1 ≤ tp.length) :
    3 ≤ (padTimeParts tp).length := by
  have h1 : (tp ++ [['0', '0']]).length = tp.length + 1 := by simp
  have h2 : ((tp ++ [['0', '0']]) ++ [['0', '0']]).length = tp.length + 2 := by simp
  rw [padTimeParts]
  split_ifs <;> omega

theorem take3_isSome (l : List (List Char)) (h : 3 ≤ l.length) :
    (take3 l).isSome = true := by
  match l with
  | _ :: _ :: _ :: _ => rfl
  | [] => simp at h
  | [_] => simp at h
  | [_, _] => simp at h

theorem isoFuzzyRun_isSome (s : List Char) : (isoFuzzyRun s).isSome = true := by
  rw [isoFuzzyRun]
  obtain ⟨dtBase, hB⟩ : ∃ x, dtBaseStep s = some x := by
    rw [dtBaseStep]
    split
    · cases hs : splitOnChar '.' s with
      | nil => exact absurd hs (splitOnChar_ne_nil _ _)
      | cons a t => exact ⟨a, rfl⟩
    · exact ⟨s, rfl⟩
  rw [hB, Option.some_bind']
  dsimp only
  obtain ⟨p, hP⟩ : ∃ x, dateTimeSplit (trimStr (replaceChar 'T' ' ' dtBase)) = some x := by
    rw [dateTimeSplit]
    split
    · next hsp =>
      cases hs : splitOnChar ' ' (trimStr (replaceChar 'T' ' ' dtBase)) with
      | nil => exact absurd hs (splitOnChar_ne_nil _ _)
      | cons a t =>
        cases t with
        | nil =>
          have hmem := (hasChar_iff_mem _ ' ').mp hsp
          have h2 := splitOnChar_length_ge_two ' ' _ hmem
          rw [hs] at h2
          simp at h2
        | cons b t2 => exact ⟨(a, b), rfl⟩
    · exact ⟨(_, []), rfl⟩
  rw [hP, Option.some_bind']
  have hdp : 3 ≤ (padDateParts (if 1 < utf8Len p.1 then splitOnChar '-' p.1
      else [['2', '0', '0', '0'], ['0', '1'], ['0', '1']])).length := by
    apply padDateParts_length
    split
    · exact List.length_pos.mpr (splitOnChar_ne_nil '-' p.1)
    · norm_num
  obtain ⟨dp, hDP⟩ := Option.isSome_iff_exists.mp (take3_isSome _ hdp)
  rw [hDP, Option.some_bind']
  have htp : 3 ≤ (padTimeParts (if 1 < utf8Len p.2 then splitOnChar ':' p.2
      else [['0', '0'], ['0', '0'], ['0', '0']])).length := by
    apply padTimeParts_length
    split
    · exact List.length_pos.mpr (splitOnChar_ne_nil ':' p.2)
    · norm_num
  obtain ⟨tp, hTP⟩ := Option.isSome_iff_exists.mp (take3_isSome _ htp)
  rw [hTP, Option.some_bind']
  rfl

/-! ## The claims -/

/-- C1: the claim states that `julian_day_to_datetime` first checks
`MIN_SUPPORTED <= jd <= MAX_SUPPORTED` and returns a range error for
every Julian Day strictly outside `[-1930999.5, 5373484.499999]`.  The
source performs no such check — its only failure is chrono's own, far
wider, representability bound.  This theorem evaluates the code at
Julian Days strictly outside the supported interval on both sides and
obtains successful date-time results (`10000-01-01T12:00:00` and
`-10000-12-31T00:00:00`), contradicting the claim.  The claimed check
belongs to the newer library version that the repository's own
integration tests import the `JULIAN_DAY_MIN_SUPPORTED` /
`JULIAN_DAY_MAX_SUPPORTED` constants from; src/src/lib.rs lags behind
its own test suite. -/
theorem C1_no_range_check :
    QF.qLt JULIAN_DAY_MAX_SUPPORTED ⟨5373485, 1⟩
      ∧ julian_day_to_datetime ⟨5373485, 1⟩ = some ⟨10000, 1, 1, 12, 0, 0⟩
      ∧ QF.qLt ⟨-3862001, 2⟩ JULIAN_DAY_MIN_SUPPORTED
      ∧ julian_day_to_datetime ⟨-3862001, 2⟩ = some ⟨-10000, 12, 31, 0, 0, 0⟩ :=
  ⟨by decide, by decide, by decide, by decide⟩

/-- C2: the claim states the `to_jd` / `from_jd` round trip reproduces
any in-range date-time to within one millisecond.  The source's
seconds-only path truncates `(jd - 2440587.5) * 86400` toward zero, and
floating-point rounding makes that product fall just **below** the
original whole second: for `1970-01-01T00:00:01` (Julian Day within the
supported range, second and third conjuncts) the round trip returns
`1970-01-01T00:00:00` — a full second (1000 ms) off.  The repository's
own `test_milliseconds` integration test (asserting non-zero
milliseconds from `from_jd`) targets the newer millisecond-resolution
version; src/src/lib.rs contradicts its own test suite. -/
theorem C2_roundtrip_second_loss :
    QF.qLt JULIAN_DAY_MIN_SUPPORTED (to_jd ⟨1970, 1, 1, 0, 0, 1⟩)
      ∧ QF.qLt (to_jd ⟨1970, 1, 1, 0, 0, 1⟩) JULIAN_DAY_MAX_SUPPORTED
      ∧ from_jd (to_jd ⟨1970, 1, 1, 0, 0, 1⟩) = some ⟨1970, 1, 1, 0, 0, 0⟩
      ∧ (⟨1970, 1, 1, 0, 0, 0⟩ : NaiveDateTime) ≠ ⟨1970, 1, 1, 0, 0, 1⟩ :=
  ⟨by decide, by decide, by decide, by decide⟩

/-- C3: for every `f64` Julian Day whose computed scaled value
`(jd - 2440587.5) * 86400` lies in the representable `i64` range,
`julian_day_to_unixtime` equals that value truncated toward zero —
`⌈·⌉` (truncation upward toward zero) for negative values, `⌊·⌋`
otherwise; in particular it is neither rounded nor floored. -/
theorem C3_unixtime_truncates_toward_zero (jd : QF)
    (hlo : QF.qLe ⟨-(2 ^ 63), 1⟩ (fpMul (fpSub jd JULIAN_DAY_UNIX_EPOCH_DAYS) ⟨86400, 1⟩))
    (hhi : QF.qLe (fpMul (fpSub jd JULIAN_DAY_UNIX_EPOCH_DAYS) ⟨86400, 1⟩) ⟨2 ^ 63 - 1, 1⟩) :
    julian_day_to_unixtime jd =
      if (fpMul (fpSub jd JULIAN_DAY_UNIX_EPOCH_DAYS) ⟨86400, 1⟩).toRat < 0
      then ⌈(fpMul (fpSub jd JULIAN_DAY_UNIX_EPOCH_DAYS) ⟨86400, 1⟩).toRat⌉
      else ⌊(fpMul (fpSub jd JULIAN_DAY_UNIX_EPOCH_DAYS) ⟨86400, 1⟩).toRat⌋ := by
  set v := fpMul (fpSub jd JULIAN_DAY_UNIX_EPOCH_DAYS) ⟨86400, 1⟩ with hv
  have hd : 0 < v.den := by rw [hv]; exact fpMul_den_pos _ _
  have hvlo : ((-(2 ^ 63) : ℤ) : ℚ) ≤ v.toRat := by
    have h1 := (QF.qLe_iff ⟨-(2 ^ 63), 1⟩ v (by norm_num) hd).mp hlo
    simpa [QF.toRat] using h1
  have hvhi : v.toRat ≤ ((2 ^ 63 - 1 : ℤ) : ℚ) := by
    have h1 := (QF.qLe_iff v ⟨2 ^ 63 - 1, 1⟩ hd (by norm_num)).mp hhi
    simpa [QF.toRat] using h1
  rw [julian_day_to_unixtime, f64_as_i64, ← hv, qTrunc_eq v hd]
  by_cases hneg : v.toRat < 0
  · rw [if_pos hneg]
    have hceilLo : -(2 ^ 63) ≤ ⌈v.toRat⌉ := by
      calc (-(2 ^ 63) : ℤ) = ⌈((-(2 ^ 63) : ℤ) : ℚ)⌉ := (Int.ceil_intCast _).symm
        _ ≤ ⌈v.toRat⌉ := Int.ceil_mono hvlo
    have hceilHi : ⌈v.toRat⌉ ≤ 2 ^ 63 - 1 := by
      have h0 : ⌈v.toRat⌉ ≤ 0 := Int.ceil_le.mpr (by exact_mod_cast hneg.le)
      omega
    omega
  · rw [if_neg hneg]
    have h0 : (0 : ℚ) ≤ v.toRat := not_lt.mp hneg
    have hfLo : -(2 ^ 63) ≤ ⌊v.toRat⌋ := by
      have h1 : (0 : ℤ) ≤ ⌊v.toRat⌋ := Int.le_floor.mpr (by exact_mod_cast h0)
      omega
    have hfHi : ⌊v.toRat⌋ ≤ 2 ^ 63 - 1 := by
      calc ⌊v.toRat⌋ ≤ ⌊((2 ^ 63 - 1 : ℤ) : ℚ)⌋ := Int.floor_le_floor hvhi
        _ = 2 ^ 63 - 1 := Int.floor_intCast _
    omega

/-- Witness for C3, at `jd = 0.0` (scaled value `-210866760000`,
a negative in-range product). -/
theorem C3_unixtime_truncates_toward_zero_witness :
    QF.qLe ⟨-(2 ^ 63), 1⟩ (fpMul (fpSub ⟨0, 1⟩ JULIAN_DAY_UNIX_EPOCH_DAYS) ⟨86400, 1⟩)
      ∧ QF.qLe (fpMul (fpSub ⟨0, 1⟩ JULIAN_DAY_UNIX_EPOCH_DAYS) ⟨86400, 1⟩) ⟨2 ^ 63 - 1, 1⟩
      ∧ julian_day_to_unixtime ⟨0, 1⟩ =
        if (fpMul (fpSub ⟨0, 1⟩ JULIAN_DAY_UNIX_EPOCH_DAYS) ⟨86400, 1⟩).toRat < 0
        then ⌈(fpMul (fpSub ⟨0, 1⟩ JULIAN_DAY_UNIX_EPOCH_DAYS) ⟨86400, 1⟩).toRat⌉
        else ⌊(fpMul (fpSub ⟨0, 1⟩ JULIAN_DAY_UNIX_EPOCH_DAYS) ⟨86400, 1⟩).toRat⌋ :=
  ⟨by decide, by decide, C3_unixtime_truncates_toward_zero ⟨0, 1⟩ (by decide) (by decide)⟩

/-- C4: `julian_day_to_weekday_index` computes
`(trunc-to-u64(jd + offset/86400 - 2440587.5) % 7 + 4) % 7` (each
arithmetic step in `f64`, the cast saturating), always lands in `0..6`,
and on the Julian Day of 2022-09-04T18:00:00 (a Sunday) yields `0` at
offset `0` and `1` at offset `36000`. -/
theorem C4_weekday_index_spec :
    (∀ (jd : QF) (offset_secs : ℤ),
        julian_day_to_weekday_index jd offset_secs =
          (f64_as_u64 (fpSub (fpAdd jd (fpDiv (fpOfInt offset_secs) ⟨86400, 1⟩))
            JULIAN_DAY_UNIX_EPOCH_DAYS) % 7 + 4) % 7
          ∧ julian_day_to_weekday_index jd offset_secs < 7)
      ∧ julian_day_to_weekday_index (to_jd ⟨2022, 9, 4, 18, 0, 0⟩) 0 = 0
      ∧ julian_day_to_weekday_index (to_jd ⟨2022, 9, 4, 18, 0, 0⟩) 36000 = 1 :=
  ⟨fun jd offset_secs => ⟨weekday_index_formula jd offset_secs,
      weekday_index_lt jd offset_secs⟩,
    by decide, by decide⟩

/-- C5: the fuzzy parser's default-filling table — missing time
components default to `0` (`"2022-09-04 18"`), a missing day and/or
month default to `1` (`"2023-11"`, `"2023"`), everything from the first
`'.'` on is discarded (`"2023-11-15T17:53:26.383Z"`), and a wholly
absent or empty date segment defaults to `2000-01-01` (`""`). -/
theorem C5_fuzzy_parser_defaults :
    iso_fuzzy_string_to_datetime ("2022-09-04 18".data) = some ⟨2022, 9, 4, 18, 0, 0⟩
      ∧ iso_fuzzy_string_to_datetime ("2023-11".data) = some ⟨2023, 11, 1, 0, 0, 0⟩
      ∧ iso_fuzzy_string_to_datetime ("2023".data) = some ⟨2023, 1, 1, 0, 0, 0⟩
      ∧ iso_fuzzy_string_to_datetime ("2023-11-15T17:53:26.383Z".data)
          = some ⟨2023, 11, 15, 17, 53, 26⟩
      ∧ iso_fuzzy_string_to_datetime ("".data) = some ⟨2000, 1, 1, 0, 0, 0⟩ :=
  ⟨by decide, by decide, by decide, by decide, by decide⟩

/-- C6: `julian_day_to_datetime` at the minimum supported Julian Day
`-1930999.5` yields exactly `-9999-01-01T00:00:00`, and at the maximum
supported Julian Day (the `f64` nearest `5373484.499999`) yields exactly
`9999-12-31T23:59:59`. -/
theorem C6_supported_boundaries :
    julian_day_to_datetime JULIAN_DAY_MIN_SUPPORTED = some ⟨-9999, 1, 1, 0, 0, 0⟩
      ∧ julian_day_to_datetime JULIAN_DAY_MAX_SUPPORTED = some ⟨9999, 12, 31, 23, 59, 59⟩ :=
  ⟨by decide, by decide⟩

/-- C7: Julian Day `0.0` converts to `-4713-11-24T12:00:00`, Julian Day
`2440587.5` converts to `1970-01-01T00:00:00`, and Unix timestamp `0`
maps to exactly the Julian Day `2440587.5` (value equality; the last
conjunct ties the constant to the decimal literal). -/
theorem C7_epoch_fixed_points :
    julian_day_to_datetime ⟨0, 1⟩ = some ⟨-4713, 11, 24, 12, 0, 0⟩
      ∧ julian_day_to_datetime JULIAN_DAY_UNIX_EPOCH_DAYS = some ⟨1970, 1, 1, 0, 0, 0⟩
      ∧ QF.qEq (unixtime_to_julian_day 0) JULIAN_DAY_UNIX_EPOCH_DAYS
      ∧ JULIAN_DAY_UNIX_EPOCH_DAYS.toRat = (2440587.5 : ℚ) := by
  refine ⟨by decide, by decide, by decide, ?_⟩
  rw [QF.toRat, JULIAN_DAY_UNIX_EPOCH_DAYS]
  norm_num

/-- C8: `julian_day_to_weekday_number` (modelled from the spec, see its
definition) always lands in `1..7`, agrees with
`julian_day_to_weekday_index` modulo 7 (so every non-Sunday index
passes through unchanged), is `7` exactly when the index is `0`
(Sunday), and on the Julian Day of 2022-09-04T18:00:00 (a Sunday)
yields `7` at offset `0`. -/
theorem C8_weekday_number_spec :
    (∀ (jd : QF) (offset_secs : ℤ),
        (1 ≤ julian_day_to_weekday_number jd offset_secs
          ∧ julian_day_to_weekday_number jd offset_secs ≤ 7)
        ∧ julian_day_to_weekday_number jd offset_secs % 7
            = julian_day_to_weekday_index jd offset_secs
        ∧ (julian_day_to_weekday_index jd offset_secs = 0
            ↔ julian_day_to_weekday_number jd offset_secs = 7))
      ∧ julian_day_to_weekday_number (to_jd ⟨2022, 9, 4, 18, 0, 0⟩) 0 = 7 := by
  constructor
  · intro jd offset_secs
    have hlt := weekday_index_lt jd offset_secs
    rw [julian_day_to_weekday_number]
    by_cases h0 : julian_day_to_weekday_index jd offset_secs = 0
    · rw [if_pos h0]
      omega
    · rw [if_neg h0]
      omega
  · decide

/-- C9: the fuzzy parser is total — for every input string none of its
internal `unwrap`s or vector indexings can panic (the panic-explicit
embedding `isoFuzzyRun` always returns `some`), and the malformed input
`"not-a-date"` yields a parse error, not a default-filled date-time. -/
theorem C9_parser_never_panics :
    (∀ s : List Char, (isoFuzzyRun s).isSome = true)
      ∧ iso_fuzzy_string_to_datetime ("not-a-date".data) = none :=
  ⟨isoFuzzyRun_isSome, by decide⟩

/-- C10: whenever the offset-adjusted Julian Day `jd + offset_secs/86400`
(as the code computes it) is strictly below the Unix-epoch Julian Day
`2440587.5`, the negative day count saturates to `0` in the `u64` cast
and `julian_day_to_weekday_index` returns the constant `4` regardless of
the actual weekday. -/
theorem C10_pre1970_weekday_constant (jd : QF) (offset_secs : ℤ)
    (h : QF.qLt (fpAdd jd (fpDiv (fpOfInt offset_secs) ⟨86400, 1⟩))
      JULIAN_DAY_UNIX_EPOCH_DAYS) :
    julian_day_to_weekday_index jd offset_secs = 4 := by
  rw [julian_day_to_weekday_index]
  rw [QF.qLt] at h
  have hrefden : 0 < (fpAdd jd (fpDiv (fpOfInt offset_secs) ⟨86400, 1⟩)).den :=
    fpAdd_den_pos _ _
  have hdaysneg : (fpSub (fpAdd jd (fpDiv (fpOfInt offset_secs) ⟨86400, 1⟩))
      JULIAN_DAY_UNIX_EPOCH_DAYS).num < 0 := by
    rw [fpSub]
    exact roundRat_num_neg _ _ (by omega)
      (mul_pos hrefden (by decide))
  have hzero : f64_as_u64 (fpSub (fpAdd jd (fpDiv (fpOfInt offset_secs) ⟨86400, 1⟩))
      JULIAN_DAY_UNIX_EPOCH_DAYS) = 0 := by
    rw [f64_as_u64, if_pos hdaysneg]
  rw [hzero]
  decide

/-- Witness for C10, at `jd = 0.0`, `offset_secs = 0` (an instant far
before 1970). -/
theorem C10_pre1970_weekday_constant_witness :
    QF.qLt (fpAdd ⟨0, 1⟩ (fpDiv (fpOfInt 0) ⟨86400, 1⟩)) JULIAN_DAY_UNIX_EPOCH_DAYS
      ∧ julian_day_to_weekday_index ⟨0, 1⟩ 0 = 4 :=
  ⟨by decide, C10_pre1970_weekday_constant ⟨0, 1⟩ 0 (by decide)⟩
